import Mathlib

/-!
Verification of the Deck client-side store (store/stack.js together with the
main board store, services/BoardApi.js) against its natural-language
specification.

The JavaScript store is shallowly embedded: every Vuex mutation becomes a pure
function from the relevant slice of state to the new slice, every getter a
pure function of the state, and every action a record of the commits it
performs synchronously before its remote call, on promise resolution, and on
promise rejection.  JavaScript objects kept in collections are identified by
their id field, mirroring the store's own findIndex-by-id discipline; in-place
mutation of a found object is embedded as replacing the element with the same
id.  Helpers of this repository that are referenced from the store sources but
whose files are not available (applyOrderToArray, boardToMenuItem, the card
store module) are modelled from the specification and marked as such.
-/

namespace Deck

/-- JavaScript runtime values, restricted to the fragment the board fields
need: null, undefined, booleans, (integer) numbers and strings. -/
inductive JVal where
  | null
  | undefined
  | bool (b : Bool)
  | num (n : Int)
  | str (s : String)
deriving DecidableEq, Repr

/-- JavaScript truthiness of a value, as used by conditions such as
!board.deletedAt and board.shared. -/
def JVal.truthy : JVal → Bool
  | .null => false
  | .undefined => false
  | .bool b => b
  | .num n => n != 0
  | .str s => s != ""

/-- JavaScript strict equality (===) on the fragment above: values of
different runtime types are never strictly equal, values of the same type
compare by value. -/
def JVal.strictEq (a b : JVal) : Bool := a == b

/-- A board as the main store's getters see it: the fields the getters read.
Fields absent from a board object are JVal.undefined. -/
structure Board where
  id : Nat
  archived : JVal
  shared : JVal
  deletedAt : JVal
deriving DecidableEq, Repr

/-- Getter noneArchivedBoards: boards with archived === false and no
deletedAt. -/
def noneArchivedBoards (bs : List Board) : List Board :=
  bs.filter fun board => board.archived.strictEq (JVal.bool false) && !board.deletedAt.truthy

/-- Getter archivedBoards: boards with archived === true and no deletedAt. -/
def archivedBoards (bs : List Board) : List Board :=
  bs.filter fun board => board.archived.strictEq (JVal.bool true) && !board.deletedAt.truthy

/-- Getter sharedBoards: the source tests board.shared for truthiness
(board.shared && !board.deletedAt), not strict equality with true. -/
def sharedBoards (bs : List Board) : List Board :=
  bs.filter fun board => board.shared.truthy && !board.deletedAt.truthy

/-- Value of BOARD_FILTERS.ALL. -/
def BOARD_FILTERS_ALL : String := ""

/-- Value of BOARD_FILTERS.ARCHIVED. -/
def BOARD_FILTERS_ARCHIVED : String := "archived"

/-- Value of BOARD_FILTERS.SHARED. -/
def BOARD_FILTERS_SHARED : String := "shared"

/-- Getter filteredBoards before the menu-item projection: the disjunction of
the three filter branches exactly as written in the source, including the
strict comparisons (=== false, === true, === 1). -/
def filteredBoardsRaw (boardFilter : String) (bs : List Board) : List Board :=
  bs.filter fun board =>
    (boardFilter == BOARD_FILTERS_ALL && board.archived.strictEq (JVal.bool false))
    || (boardFilter == BOARD_FILTERS_ARCHIVED && board.archived.strictEq (JVal.bool true))
    || (boardFilter == BOARD_FILTERS_SHARED && board.shared.strictEq (JVal.num 1))

/-- Modelled from the spec: the helper boardToMenuItem
(helpers/boardToMenuItem) is not among the available sources; the spec calls
it only a menu-ready projection, so it stays an arbitrary projection
parameter.  filteredBoards maps the filtered boards through it. -/
def filteredBoards {μ : Type} (boardToMenuItem : Board → μ) (boardFilter : String)
    (bs : List Board) : List μ :=
  (filteredBoardsRaw boardFilter bs).map boardToMenuItem

/-- A stack as the ordering logic sees it: id, its board, and its order
stamp. -/
structure Stack where
  id : Nat
  boardId : Nat
  order : Int
deriving DecidableEq, Repr

/-- Getter stacksByBoard: filter the flat collection by boardId and sort
ascending by the order field (the comparator (a, b) => a.order - b.order). -/
def stacksByBoard (ss : List Stack) (id : Nat) : List Stack :=
  (ss.filter fun stack => stack.boardId == id).mergeSort fun a b => a.order ≤ b.order

/-- Modelled from the spec: the helper applyOrderToArray
(helpers/applyOrderToArray) is not among the available sources.  Spec 4.1:
removes the element at removedIndex and re-inserts it at addedIndex, computed
against the sequence after removal; outside the stated preconditions the
sequence is returned unchanged. -/
def applyOrderToArray {α : Type} (l : List α) (removedIndex addedIndex : Nat) : List α :=
  if h : removedIndex < l.length then
    (l.eraseIdx removedIndex).insertIdx addedIndex (l.get ⟨removedIndex, h⟩)
  else l

/-- The re-stamping loop of the orderStack mutation, per element: the loop
assigns newOrder[i].order = i for every i.  The loop mutates the stack
objects of newOrder in place and those objects are members of state.stacks,
so the embedding gives a stack appearing at position i of newOrder the order
i and leaves a stack outside newOrder untouched (stacks are identified by
id). -/
def restampBy (newOrder : List Stack) (s : Stack) : Stack :=
  match newOrder.findIdx? (fun t => t.id == s.id) with
  | some i => { s with order := Int.ofNat i }
  | none => s

/-- Mutation orderStack: recompute the board-scoped ordered view, apply the
reorder, then stamp order := i on the i-th element of the new arrangement
(the restampBy loop). -/
def orderStack (ss : List Stack) (stack : Stack) (removedIndex addedIndex : Nat) : List Stack :=
  let currentOrder := stacksByBoard ss stack.boardId
  let newOrder := applyOrderToArray currentOrder removedIndex addedIndex
  ss.map (restampBy newOrder)

/-- Mutation addStack on the ordering model: upsert by id.  A payload of this
model carries every field, so Object.assign({}, existingStack, stack) is the
payload itself. -/
def addStack (ss : List Stack) (stack : Stack) : List Stack :=
  match ss.findIdx? (fun s => s.id == stack.id) with
  | some existingIndex => ss.set existingIndex stack
  | none => ss ++ [stack]

/-- Mutation deleteStack: findIndex by id, splice out one element when
found. -/
def deleteStack (ss : List Stack) (stack : Stack) : List Stack :=
  match ss.findIdx? (fun s => s.id == stack.id) with
  | some existingIndex => ss.eraseIdx existingIndex
  | none => ss

/-- Mutation updateStack: positional replace by id, no-op when absent. -/
def updateStack (ss : List Stack) (stack : Stack) : List Stack :=
  match ss.findIdx? (fun s => s.id == stack.id) with
  | some existingIndex => ss.set existingIndex stack
  | none => ss

/-- A commit against the stack collection, as dispatched by the stack
actions. -/
inductive StackCommit where
  | addStack (stack : Stack)
  | orderStack (stack : Stack) (removedIndex addedIndex : Nat)
  | deleteStack (stack : Stack)
  | updateStack (stack : Stack)
deriving DecidableEq, Repr

/-- Apply one committed mutation to the stack collection. -/
def commitStack (ss : List Stack) : StackCommit → List Stack
  | .addStack stack => addStack ss stack
  | .orderStack stack removedIndex addedIndex => orderStack ss stack removedIndex addedIndex
  | .deleteStack stack => deleteStack ss stack
  | .updateStack stack => updateStack ss stack

/-- Apply a sequence of commits left to right. -/
def applyStackCommits (ss : List Stack) (cs : List StackCommit) : List Stack :=
  cs.foldl commitStack ss

/-- The synchronous shape of a promise-based action: the commits it performs
before its remote call returns, the commits of its resolution handler, and
the commits of its rejection handler. -/
structure ActionTrace (ρ κ : Type) where
  preCommits : List κ
  onResolve : ρ → List κ
  onReject : List κ

/-- Action orderStack: commits the reorder immediately, commits nothing on
resolution, and in its catch handler commits
orderStack with the object literal written as
braces stack, addedIndex, removedIndex end-braces — JavaScript shorthand
binds each value to the property of its own name, so the rejection commit
carries the same removedIndex and addedIndex as the optimistic one. -/
def orderStackAction (stack : Stack) (removedIndex addedIndex : Nat) :
    ActionTrace Unit StackCommit where
  preCommits := [.orderStack stack removedIndex addedIndex]
  onResolve := fun _ => []
  onReject := [.orderStack stack removedIndex addedIndex]

/-- Action createStack: nothing before the call; on resolution commits
addStack with the created stack returned by the server; no catch handler. -/
def createStackAction (_stack : Stack) : ActionTrace Stack StackCommit where
  preCommits := []
  onResolve := fun createdStack => [.addStack createdStack]
  onReject := []

/-- Action deleteStack: nothing before the call; on resolution commits
deleteStack; no catch handler. -/
def deleteStackAction (_stack : Stack) : ActionTrace Stack StackCommit where
  preCommits := []
  onResolve := fun stack => [.deleteStack stack]
  onReject := []

/-- Action updateStack: nothing before the call; on resolution commits
updateStack; no catch handler. -/
def updateStackAction (_stack : Stack) : ActionTrace Stack StackCommit where
  preCommits := []
  onResolve := fun stack => [.updateStack stack]
  onReject := []

end Deck

namespace Deck.Obj

/-- Set one field of a JavaScript object's own properties: an existing key
keeps its position and receives the new value, a new key is appended. -/
def setField : List (String × Int) → String → Int → List (String × Int)
  | [], k, v => [(k, v)]
  | (k', v') :: rest, k, v =>
    if k' = k then (k, v) :: rest else (k', v') :: setField rest k v

/-- Read one field of an object: the value at the first occurrence of the
key, none when the key is absent. -/
def getField (fields : List (String × Int)) (k : String) : Option Int :=
  (fields.find? fun kv => kv.1 == k).map fun kv => kv.2

/-- Object.assign semantics on plain fields: fold the payload's entries over
the existing entries, overriding present keys and appending new ones. -/
def assignFields (old new : List (String × Int)) : List (String × Int) :=
  new.foldl (fun acc kv => setField acc kv.1 kv.2) old

/-- A card payload: id plus its remaining scalar fields. -/
structure CardObj where
  id : Nat
  fields : List (String × Int)
deriving DecidableEq, Repr

/-- A stack record or payload: id, scalar fields, and the embedded cards key,
present (some) or absent (none). -/
structure StackObj where
  id : Nat
  fields : List (String × Int)
  cards : Option (List CardObj)
deriving DecidableEq, Repr

/-- A board payload: id plus its remaining scalar fields. -/
structure BoardObj where
  id : Nat
  fields : List (String × Int)
deriving DecidableEq, Repr

/-- Object.assign over an existing stack record and an incoming payload:
scalar fields are merged key by key, and the cards key of the payload
overrides the existing one exactly when it is present. -/
def assignStack (existingStack stack : StackObj) : StackObj where
  id := stack.id
  fields := assignFields existingStack.fields stack.fields
  cards := match stack.cards with
    | some cs => some cs
    | none => existingStack.cards

/-- Mutation addStack of the stack store: findIndex by id; when found,
replace that slot with Object.assign of the existing record and the payload;
otherwise push the payload. -/
def addStack (ss : List StackObj) (stack : StackObj) : List StackObj :=
  match ss.findIdx? (fun s => s.id == stack.id) with
  | some existingIndex =>
    match ss.find? (fun s => s.id == stack.id) with
    | some existingStack => ss.set existingIndex (assignStack existingStack stack)
    | none => ss
  | none => ss ++ [stack]

/-- Mutation addBoard of the main store: findIndex by id; when found, replace
that slot with the payload itself (no merge); otherwise push the payload. -/
def addBoard (bs : List BoardObj) (board : BoardObj) : List BoardObj :=
  match bs.findIdx? (fun b => board.id == b.id) with
  | some indexExisting => bs.set indexExisting board
  | none => bs ++ [board]

/-- Modelled from the spec: the card store module (store/card.js) is not
among the available sources.  Spec 4.2: add(entity) is upsert by id with a
shallow merge of new fields over the existing record, append otherwise. -/
def addCard (cs : List CardObj) (card : CardObj) : List CardObj :=
  match cs.findIdx? (fun c => c.id == card.id) with
  | some existingIndex =>
    match cs.find? (fun c => c.id == card.id) with
    | some existing => cs.set existingIndex ⟨card.id, assignFields existing.fields card.fields⟩
    | none => cs
  | none => cs ++ [card]

/-- A commit performed by the loadStacks resolution handler: either an
addCard to the card store or an addStack to the stack store. -/
inductive LoadCommit where
  | addCard (card : CardObj)
  | addStack (stack : StackObj)
deriving DecidableEq, Repr

/-- The commits of the loadStacks resolution handler, in source order: for
each stack of the response, one addCard per embedded card, then addStack of
the stack with its cards key deleted. -/
def loadStacksOnResolve (resp : List StackObj) : List LoadCommit :=
  resp.foldl
    (fun acc stack =>
      acc ++ (stack.cards.getD []).map LoadCommit.addCard
        ++ [LoadCommit.addStack { stack with cards := none }])
    []

/-- Apply one loadStacks commit to the pair of card store and stack store. -/
def applyLoadCommit (st : List CardObj × List StackObj) : LoadCommit → List CardObj × List StackObj
  | .addCard card => (addCard st.1 card, st.2)
  | .addStack stack => (st.1, addStack st.2 stack)

/-- The full effect of the loadStacks resolution handler on the card store
and the stack store. -/
def ingestStacks (cs : List CardObj) (ss : List StackObj) (resp : List StackObj) :
    List CardObj × List StackObj :=
  (loadStacksOnResolve resp).foldl applyLoadCommit (cs, ss)

/-- What it means for a record to be the shallow merge of an incoming payload
over an existing record: the payload's id, every field read from the merge is
the payload's when the payload carries the key and the existing record's
otherwise, and likewise for the embedded cards key. -/
def IsShallowMergeOf (merged stack existingStack : StackObj) : Prop :=
  merged.id = stack.id
  ∧ (∀ k, getField merged.fields k =
      match getField stack.fields k with
      | some v => some v
      | none => getField existingStack.fields k)
  ∧ merged.cards = (match stack.cards with
      | some cs => some cs
      | none => existingStack.cards)

end Deck.Obj

namespace Deck

/-- Action loadStacks: nothing before the call; on resolution performs the
nested-ingest commits; no catch handler. -/
def loadStacksAction : ActionTrace (List Obj.StackObj) Obj.LoadCommit where
  preCommits := []
  onResolve := Obj.loadStacksOnResolve
  onReject := []

/-- A label of the current board. -/
structure Label where
  id : Nat
  title : String
  color : String
deriving DecidableEq, Repr

/-- Mutation removeLabelFromCurrentBoard: findIndex by id on the current
board's labels, splice out one element when the index is found, otherwise
leave the sequence unchanged. -/
def removeLabelFromCurrentBoard (ls : List Label) (labelId : Nat) : List Label :=
  match ls.findIdx? (fun l => labelId == l.id) with
  | some removeIndex => ls.eraseIdx removeIndex
  | none => ls

/-- Mutation updateLabelFromCurrentBoard: find by id and assign the payload's
title and color onto the found label in place.  When no label matches, find
yields undefined and the property assignment raises a TypeError, embedded as
none. -/
def updateLabelFromCurrentBoard (ls : List Label) (newLabel : Label) : Option (List Label) :=
  match ls.findIdx? (fun l => newLabel.id == l.id) with
  | some i =>
    match ls[i]? with
    | some labelToUpdate =>
      some (ls.set i { labelToUpdate with title := newLabel.title, color := newLabel.color })
    | none => none
  | none => none

/-- A JavaScript exception, as far as the store raises them. -/
inductive JSError where
  | typeError
deriving DecidableEq, Repr

/-- The slice of main-store state the filter claims need. -/
structure MainState where
  boardFilter : String
deriving DecidableEq, Repr

/-- Mutation setBoardFilter: store the filter value. -/
def setBoardFilter (state : MainState) (filter : String) : MainState :=
  { state with boardFilter := filter }

/-- The own properties of the context object Vuex passes to an action. -/
def actionContextProps : List String :=
  ["dispatch", "commit", "getters", "state", "rootGetters", "rootState"]

/-- Action setBoardFilter: its parameter list destructures the property
spelled commmit (three m's) from the action context.  No such property
exists, so the destructured binding is undefined and invoking it raises a
TypeError before any mutation is committed; were the property present, the
call would commit the setBoardFilter mutation. -/
def setBoardFilterAction (state : MainState) (filter : String) : Except JSError MainState :=
  if "commmit" ∈ actionContextProps then
    Except.ok (setBoardFilter state filter)
  else
    Except.error JSError.typeError

/-- Concrete stack A of the rollback scenario: order 0 on board 7. -/
def stackA : Stack := ⟨1, 7, 0⟩

/-- Concrete stack B of the rollback scenario: order 1 on board 7. -/
def stackB : Stack := ⟨2, 7, 1⟩

/-- Concrete stack C of the rollback scenario: order 2 on board 7. -/
def stackC : Stack := ⟨3, 7, 2⟩

/-- The rollback scenario's stack collection. -/
def boardStacks : List Stack := [stackA, stackB, stackC]

/-- First board of the filter-semantics scenario: archived. -/
def exBoardArchived : Board := ⟨1, JVal.bool true, JVal.undefined, JVal.undefined⟩

/-- Second board of the filter-semantics scenario: not archived. -/
def exBoardActive : Board := ⟨2, JVal.bool false, JVal.undefined, JVal.undefined⟩

/-- Third board of the filter-semantics scenario: shared, not archived. -/
def exBoardShared : Board := ⟨3, JVal.bool false, JVal.bool true, JVal.undefined⟩

/-- A board whose shared field is the number 1, with no deletedAt. -/
def numSharedBoard : Board := ⟨4, JVal.bool false, JVal.num 1, JVal.null⟩

/-- A board whose shared field is the boolean true, with no deletedAt. -/
def boolSharedBoard : Board := ⟨5, JVal.bool false, JVal.bool true, JVal.null⟩

/-- A concrete label. -/
def exLabel : Label := ⟨1, "urgent", "FF0000"⟩

/-- An update payload whose id matches exLabel. -/
def exLabelUpd : Label := ⟨1, "assigned", "00FF00"⟩

/-- An update payload whose id matches no stored label. -/
def exLabelOther : Label := ⟨2, "assigned", "00FF00"⟩

/-- A stack store holding one record with two scalar fields. -/
def exStackStore : List Obj.StackObj := [⟨1, [("title", 1), ("color", 5)], none⟩]

/-- A stack payload for id 1 carrying only the title field. -/
def exStackPayload : Obj.StackObj := ⟨1, [("title", 2)], none⟩

/-- A board store holding one record with two scalar fields. -/
def exBoardStore : List Obj.BoardObj := [⟨1, [("title", 1), ("color", 5)]⟩]

/-- A board payload for id 1 carrying only the title field. -/
def exBoardPayload : Obj.BoardObj := ⟨1, [("title", 2)]⟩

/-- The bulk-load response of the nested-ingest scenario: one stack with id 1
carrying embedded cards 10 and 11. -/
def nestedResp : List Obj.StackObj := [⟨1, [], some [⟨10, []⟩, ⟨11, []⟩]⟩]

end Deck

namespace Deck

/-! Helper lemmas about lists, shared by the claim proofs. -/

/-- Setting an index of a list to the element already there is the
identity. -/
theorem set_getElem_self {α : Type} : ∀ (l : List α) (i : Nat) (h : i < l.length),
    l.set i (l.get ⟨i, h⟩) = l
  | _ :: _, 0, _ => rfl
  | a :: l, i + 1, h => by
    simpa using set_getElem_self l i (by simpa using h)

/-- Re-inserting the element removed at an index at that same index rebuilds
the list. -/
theorem insertIdx_getElem_eraseIdx {α : Type} : ∀ (l : List α) (r : Nat) (h : r < l.length),
    (l.eraseIdx r).insertIdx r (l.get ⟨r, h⟩) = l
  | _ :: _, 0, _ => rfl
  | a :: l, r + 1, h => by
    simp only [List.eraseIdx_cons_succ, List.insertIdx_succ_cons, List.get_eq_getElem,
      List.getElem_cons_succ]
    have := insertIdx_getElem_eraseIdx l r (by simpa using h)
    simp only [List.get_eq_getElem] at this
    rw [this]

/-- Inserting an element at a valid position yields a permutation of consing
it. -/
theorem perm_insertIdx {α : Type} (x : α) : ∀ (l : List α) (n : Nat), n ≤ l.length →
    (l.insertIdx n x).Perm (x :: l)
  | _, 0, _ => by simp
  | a :: l, n + 1, h => by
    simp only [List.insertIdx_succ_cons]
    exact ((perm_insertIdx x l n (by simpa using h)).cons a).trans (List.Perm.swap x a l)

/-- C5: for every ordered sequence S and valid indices r and a, applying the
order utility with (r, a) and then with (a, r) reconstructs the original
sequence. -/
theorem applyOrderToArray_round_trip {α : Type} (S : List α) (r a : Nat)
    (hr : r < S.length) (ha : a < S.length) :
    applyOrderToArray (applyOrderToArray S r a) a r = S := by
  have hlen1 : (S.eraseIdx r).length = S.length - 1 := List.length_eraseIdx_of_lt hr
  have hle : a ≤ (S.eraseIdx r).length := by omega
  have e1 : applyOrderToArray S r a = (S.eraseIdx r).insertIdx a (S.get ⟨r, hr⟩) := by
    unfold applyOrderToArray
    exact dif_pos hr
  have hTlen : ((S.eraseIdx r).insertIdx a (S.get ⟨r, hr⟩)).length = S.length := by
    rw [List.length_insertIdx _ _ hle]
    omega
  have haT : a < ((S.eraseIdx r).insertIdx a (S.get ⟨r, hr⟩)).length := by omega
  have hgetT : ((S.eraseIdx r).insertIdx a (S.get ⟨r, hr⟩)).get ⟨a, haT⟩ = S.get ⟨r, hr⟩ := by
    simpa using List.getElem_insertIdx_self (S.eraseIdx r) (S.get ⟨r, hr⟩) a hle
  rw [e1]
  unfold applyOrderToArray
  rw [dif_pos haT, hgetT, List.eraseIdx_insertIdx a (S.eraseIdx r)]
  exact insertIdx_getElem_eraseIdx S r hr

/-- Witness for C5 at the concrete sequence [0, 1, 2] with r = 2, a = 0. -/
theorem applyOrderToArray_round_trip_witness :
    2 < ([0, 1, 2] : List Nat).length ∧ 0 < ([0, 1, 2] : List Nat).length
    ∧ applyOrderToArray (applyOrderToArray [0, 1, 2] 2 0) 0 2 = [0, 1, 2] :=
  ⟨by decide, by decide, applyOrderToArray_round_trip [0, 1, 2] 2 0 (by decide) (by decide)⟩

end Deck

namespace Deck

unseal List.merge List.mergeSort in
/-- C1: on stacks A(0), B(1), C(2) of one board, dispatching orderStack with
removedIndex 1 and addedIndex 0 optimistically yields the order B, A, C, and
the rejection handler happens to restore A, B, C there because that adjacent
transposition is its own inverse; but the rejection handler re-applies the
same (removedIndex, addedIndex) pair rather than the swapped one, so for the
move removedIndex 2, addedIndex 0 it fails to restore the prior order, while
the inverse reorder (indices swapped) would restore it. -/
theorem orderStack_failed_reorder_reapplies_same_indices :
    stacksByBoard (applyStackCommits boardStacks (orderStackAction stackB 1 0).preCommits) 7
      = [⟨2, 7, 0⟩, ⟨1, 7, 1⟩, ⟨3, 7, 2⟩]
    ∧ applyStackCommits (applyStackCommits boardStacks (orderStackAction stackB 1 0).preCommits)
        (orderStackAction stackB 1 0).onReject = boardStacks
    ∧ applyStackCommits (applyStackCommits boardStacks (orderStackAction stackC 2 0).preCommits)
        (orderStackAction stackC 2 0).onReject ≠ boardStacks
    ∧ orderStack (applyStackCommits boardStacks (orderStackAction stackC 2 0).preCommits)
        stackC 0 2 = boardStacks := by
  decide

/-- C2, counterexample: a board whose shared field is the number 1 is
included by sharedBoards (its filter is truthiness, not a strict boolean
comparison), contradicting the claim that sharedBoards excludes every such
board. -/
theorem sharedBoards_includes_numeric_shared_counterexample :
    sharedBoards [numSharedBoard] = [numSharedBoard]
    ∧ filteredBoardsRaw BOARD_FILTERS_SHARED [numSharedBoard] = [numSharedBoard] := by
  decide

/-- C2, amended: sharedBoards selects boards whose shared field is truthy
(and without deletedAt), while the SHARED branch of filteredBoards compares
shared === 1; hence a board with shared = 1 is included by both, and the
actual asymmetry is that a board with shared = true is included by
sharedBoards but excluded by the SHARED branch. -/
theorem sharedBoards_truthy_filteredBoards_strict_one :
    ∀ (bs : List Board) (board : Board), board ∈ bs → board.deletedAt.truthy = false →
      (board.shared = JVal.num 1 →
        board ∈ sharedBoards bs ∧ board ∈ filteredBoardsRaw BOARD_FILTERS_SHARED bs)
      ∧ (board.shared = JVal.bool true →
        board ∈ sharedBoards bs ∧ board ∉ filteredBoardsRaw BOARD_FILTERS_SHARED bs) := by
  intro bs board hmem hdel
  constructor
  · intro hshared
    have h1 : board.shared.truthy = true := by rw [hshared]; rfl
    have h2 : board.shared.strictEq (JVal.num 1) = true := by rw [hshared]; rfl
    constructor
    · simp [sharedBoards, List.mem_filter, hmem, h1, hdel]
    · simp [filteredBoardsRaw, List.mem_filter, hmem, h2, hdel,
        BOARD_FILTERS_ALL, BOARD_FILTERS_ARCHIVED, BOARD_FILTERS_SHARED]
  · intro hshared
    have h1 : board.shared.truthy = true := by rw [hshared]; rfl
    have h2 : board.shared.strictEq (JVal.num 1) = false := by rw [hshared]; rfl
    constructor
    · simp [sharedBoards, List.mem_filter, hmem, h1, hdel]
    · simp [filteredBoardsRaw, List.mem_filter, hmem, h2, hdel,
        BOARD_FILTERS_ALL, BOARD_FILTERS_ARCHIVED, BOARD_FILTERS_SHARED]

/-- Witness for the amended C2 on one board with shared = 1 and one with
shared = true. -/
theorem sharedBoards_truthy_filteredBoards_strict_one_witness :
    (numSharedBoard ∈ sharedBoards [numSharedBoard]
      ∧ numSharedBoard ∈ filteredBoardsRaw BOARD_FILTERS_SHARED [numSharedBoard])
    ∧ (boolSharedBoard ∈ sharedBoards [boolSharedBoard]
      ∧ boolSharedBoard ∉ filteredBoardsRaw BOARD_FILTERS_SHARED [boolSharedBoard]) :=
  ⟨(sharedBoards_truthy_filteredBoards_strict_one [numSharedBoard] numSharedBoard
      (by decide) (by decide)).1 rfl,
   (sharedBoards_truthy_filteredBoards_strict_one [boolSharedBoard] boolSharedBoard
      (by decide) (by decide)).2 rfl⟩

/-- C6: ingesting the bulk-load response with stack id 1 carrying embedded
cards 10 and 11 puts cards 10 and 11 into the card store and stores the
stack record without its cards key. -/
theorem loadStacks_nested_ingest :
    (Obj.ingestStacks [] [] nestedResp).1.map (fun c => c.id) = [10, 11]
    ∧ (Obj.ingestStacks [] [] nestedResp).2 = [⟨1, [], none⟩]
    ∧ (⟨1, [], none⟩ : Obj.StackObj).cards = none := by
  decide

/-- C7: on the boards archived, active, and shared-active, the getter
noneArchivedBoards keeps exactly the last two, archivedBoards exactly the
first, and filteredBoards under the ARCHIVED filter exactly the first mapped
through the menu-item projection. -/
theorem board_filter_semantics :
    ∀ {μ : Type} (boardToMenuItem : Board → μ),
      noneArchivedBoards [exBoardArchived, exBoardActive, exBoardShared]
        = [exBoardActive, exBoardShared]
      ∧ archivedBoards [exBoardArchived, exBoardActive, exBoardShared] = [exBoardArchived]
      ∧ filteredBoards boardToMenuItem BOARD_FILTERS_ARCHIVED
          [exBoardArchived, exBoardActive, exBoardShared] = [boardToMenuItem exBoardArchived] := by
  intro μ boardToMenuItem
  refine ⟨by decide, by decide, ?_⟩
  have h : filteredBoardsRaw BOARD_FILTERS_ARCHIVED [exBoardArchived, exBoardActive, exBoardShared]
      = [exBoardArchived] := by decide
  rw [filteredBoards, h]
  rfl

/-- C9: among the stack actions, only orderStack commits before its remote
call (its pre-commit is exactly the optimistic reorder); createStack,
deleteStack, updateStack and loadStacks commit nothing synchronously, and the
rejection path of createStack, deleteStack and updateStack leaves the stack
collection unchanged. -/
theorem only_orderStack_commits_before_remote :
    ∀ (stack : Stack) (r a : Nat) (ss : List Stack),
      (orderStackAction stack r a).preCommits = [StackCommit.orderStack stack r a]
      ∧ (createStackAction stack).preCommits = []
      ∧ (deleteStackAction stack).preCommits = []
      ∧ (updateStackAction stack).preCommits = []
      ∧ loadStacksAction.preCommits = []
      ∧ applyStackCommits ss (createStackAction stack).onReject = ss
      ∧ applyStackCommits ss (deleteStackAction stack).onReject = ss
      ∧ applyStackCommits ss (updateStackAction stack).onReject = ss :=
  fun _ _ _ _ => ⟨rfl, rfl, rfl, rfl, rfl, rfl, rfl, rfl⟩

/-- C10: dispatching the setBoardFilter action always raises a TypeError (the
destructured identifier commmit is undefined) and so never reaches a commit,
while committing the setBoardFilter mutation directly does set the filter. -/
theorem setBoardFilterAction_typo_raises :
    ∀ (state : MainState) (filter : String),
      setBoardFilterAction state filter = Except.error JSError.typeError
      ∧ (setBoardFilter state filter).boardFilter = filter := by
  intro state filter
  constructor
  · unfold setBoardFilterAction
    rw [if_neg (by decide)]
  · rfl

end Deck

namespace Deck

/-- C8: with a label id absent from the current board's labels,
removeLabelFromCurrentBoard is a silent no-op and
updateLabelFromCurrentBoard raises a dereference failure; with the id
present, update overwrites exactly the title and color of the matching label
in place. -/
theorem label_absent_semantics :
    ∀ (ls : List Label) (labelId : Nat) (newLabel : Label),
      (labelId ∉ ls.map (fun l => l.id) → removeLabelFromCurrentBoard ls labelId = ls)
      ∧ (newLabel.id ∉ ls.map (fun l => l.id) → updateLabelFromCurrentBoard ls newLabel = none)
      ∧ (newLabel.id ∈ ls.map (fun l => l.id) →
          ∃ i, ∃ h : i < ls.length, (ls.get ⟨i, h⟩).id = newLabel.id
            ∧ updateLabelFromCurrentBoard ls newLabel
              = some (ls.set i { ls.get ⟨i, h⟩ with
                  title := newLabel.title, color := newLabel.color })) := by
  intro ls labelId newLabel
  refine ⟨?_, ?_, ?_⟩
  · intro habs
    have hnone : ls.findIdx? (fun l => labelId == l.id) = none := by
      rw [List.findIdx?_eq_none_iff]
      intro x hx
      simp only [beq_eq_false_iff_ne, ne_eq]
      intro hEq
      exact habs (hEq ▸ List.mem_map_of_mem (fun l => l.id) hx)
    unfold removeLabelFromCurrentBoard
    rw [hnone]
  · intro habs
    have hnone : ls.findIdx? (fun l => newLabel.id == l.id) = none := by
      rw [List.findIdx?_eq_none_iff]
      intro x hx
      simp only [beq_eq_false_iff_ne, ne_eq]
      intro hEq
      exact habs (hEq ▸ List.mem_map_of_mem (fun l => l.id) hx)
    unfold updateLabelFromCurrentBoard
    rw [hnone]
  · intro hmem
    obtain ⟨x, hx, hxid⟩ := List.mem_map.mp hmem
    have hsome : (ls.findIdx? (fun l => newLabel.id == l.id)).isSome := by
      rw [List.findIdx?_isSome, List.any_eq_true]
      exact ⟨x, hx, by simp [hxid]⟩
    obtain ⟨i, hi⟩ := Option.isSome_iff_exists.mp hsome
    obtain ⟨hlt, hp, -⟩ := List.findIdx?_eq_some_iff_getElem.mp hi
    have hid : (ls.get ⟨i, hlt⟩).id = newLabel.id := by
      simp only [List.get_eq_getElem]
      exact (beq_iff_eq.mp hp).symm
    refine ⟨i, hlt, hid, ?_⟩
    simp only [updateLabelFromCurrentBoard, hi, List.getElem?_eq_getElem hlt,
      List.get_eq_getElem]

/-- Witness for C8: one stored label, an absent id 2 for both mutations, and
a matching update payload for id 1. -/
theorem label_absent_semantics_witness :
    (removeLabelFromCurrentBoard [exLabel] 2 = [exLabel])
    ∧ (updateLabelFromCurrentBoard [exLabel] exLabelOther = none)
    ∧ (∃ i, ∃ h : i < ([exLabel] : List Label).length,
        (([exLabel] : List Label).get ⟨i, h⟩).id = exLabelUpd.id
        ∧ updateLabelFromCurrentBoard [exLabel] exLabelUpd
          = some ([exLabel].set i { ([exLabel] : List Label).get ⟨i, h⟩ with
              title := exLabelUpd.title, color := exLabelUpd.color })) :=
  ⟨(label_absent_semantics [exLabel] 2 exLabelOther).1 (by decide),
   (label_absent_semantics [exLabel] 2 exLabelOther).2.1 (by decide),
   (label_absent_semantics [exLabel] 2 exLabelUpd).2.2 (by decide)⟩

end Deck

namespace Deck

/-- The order utility returns a permutation of its input on valid indices. -/
theorem applyOrderToArray_perm {α : Type} (l : List α) (r a : Nat) (hr : r < l.length)
    (ha : a ≤ l.length - 1) : (applyOrderToArray l r a).Perm l := by
  unfold applyOrderToArray
  rw [dif_pos hr]
  have hlen : (l.eraseIdx r).length = l.length - 1 := List.length_eraseIdx_of_lt hr
  have h1 := perm_insertIdx (l.get ⟨r, hr⟩) (l.eraseIdx r) a (by omega)
  have h2 := perm_insertIdx (l.get ⟨r, hr⟩) (l.eraseIdx r) r (by omega)
  rw [insertIdx_getElem_eraseIdx l r hr] at h2
  exact h1.trans h2.symm

/-- In a list whose ids are distinct, findIdx? on the id of the i-th element
returns exactly i. -/
theorem findIdx?_id_getElem (l : List Stack) (hids : (l.map (fun s => s.id)).Nodup)
    (i : Nat) (hi : i < l.length) :
    l.findIdx? (fun t => t.id == l[i].id) = some i := by
  rw [List.findIdx?_eq_some_iff_getElem]
  refine ⟨hi, by simp, ?_⟩
  intro j hji
  have hj : j < l.length := by omega
  simp only [beq_eq_false_iff_ne, ne_eq, Bool.not_eq_true, beq_eq_false_iff_ne]
  intro hEq
  have hj' : j < (l.map (fun s => s.id)).length := by simpa using hj
  have hi' : i < (l.map (fun s => s.id)).length := by simpa using hi
  have hmapEq : (l.map (fun s => s.id))[j] = (l.map (fun s => s.id))[i] := by
    simp only [List.getElem_map]
    exact hEq
  have := (hids.getElem_inj_iff).mp hmapEq
  omega

/-- Re-stamping the collection by a permutation newOrder of one board's
stacks and filtering back to that board yields a list whose order fields are
a permutation of 0, 1, ..., newOrder.length - 1. -/
theorem filter_map_restamp (ss newOrder : List Stack) (bid : Nat)
    (hids : (ss.map (fun s => s.id)).Nodup)
    (hperm : newOrder.Perm (ss.filter (fun s => s.boardId == bid))) :
    (((ss.map (restampBy newOrder)).filter (fun s => s.boardId == bid)).map
        (fun s => s.order)).Perm
      ((List.range newOrder.length).map Int.ofNat) := by
  have hidsF : ((ss.filter (fun s => s.boardId == bid)).map (fun s => s.id)).Nodup :=
    List.Nodup.sublist ((List.filter_sublist ss).map _) hids
  have hidsN : (newOrder.map (fun s => s.id)).Nodup := ((hperm.map _).nodup_iff).mpr hidsF
  have hstamp : ∀ (i : Nat) (hi : i < newOrder.length),
      restampBy newOrder newOrder[i] = { newOrder[i] with order := Int.ofNat i } := by
    intro i hi
    unfold restampBy
    rw [findIdx?_id_getElem newOrder hidsN i hi]
  have hpcomm : ∀ s ∈ ss,
      ((fun s => s.boardId == bid) ∘ restampBy newOrder) s = (fun s => s.boardId == bid) s := by
    intro s _
    simp only [Function.comp_apply]
    unfold restampBy
    cases newOrder.findIdx? (fun t => t.id == s.id) <;> rfl
  have e1 : (ss.map (restampBy newOrder)).filter (fun s => s.boardId == bid)
      = (ss.filter (fun s => s.boardId == bid)).map (restampBy newOrder) := by
    rw [List.filter_map]
    congr 1
    exact List.filter_congr hpcomm
  have e2 : ((ss.filter (fun s => s.boardId == bid)).map (restampBy newOrder)).Perm
      (newOrder.map (restampBy newOrder)) := (hperm.map _).symm
  have e3 : (newOrder.map (restampBy newOrder)).map (fun s => s.order)
      = (List.range newOrder.length).map Int.ofNat := by
    apply List.ext_getElem
    · simp
    · intro i h1 h2
      have hi : i < newOrder.length := by simpa using h1
      simp only [List.getElem_map, List.getElem_range]
      rw [hstamp i hi]
  have e4 := e2.map (fun s => s.order)
  rw [e3] at e4
  rw [e1]
  exact e4

/-- C3: after an orderStack mutation with valid indices on a collection with
distinct ids, the board-scoped order-sorted view of that board has order
fields exactly 0, 1, ..., n - 1, each stack's order being its position in
that view. -/
theorem orderStack_restamps_contiguous (ss : List Stack) (stack : Stack) (r a : Nat)
    (hids : (ss.map (fun s => s.id)).Nodup)
    (hr : r < (ss.filter fun s => s.boardId == stack.boardId).length)
    (ha : a < (ss.filter fun s => s.boardId == stack.boardId).length) :
    (stacksByBoard (orderStack ss stack r a) stack.boardId).map (fun s => s.order)
      = (List.range (ss.filter fun s => s.boardId == stack.boardId).length).map Int.ofNat := by
  have hcurrp : (stacksByBoard ss stack.boardId).Perm
      (ss.filter (fun s => s.boardId == stack.boardId)) := by
    unfold stacksByBoard
    exact List.mergeSort_perm _ _
  have hlencurr := hcurrp.length_eq
  have hNp : (applyOrderToArray (stacksByBoard ss stack.boardId) r a).Perm
      (ss.filter (fun s => s.boardId == stack.boardId)) :=
    (applyOrderToArray_perm _ r a (by omega) (by omega)).trans hcurrp
  have e : orderStack ss stack r a
      = ss.map (restampBy (applyOrderToArray (stacksByBoard ss stack.boardId) r a)) := rfl
  have hperm2 := filter_map_restamp ss
    (applyOrderToArray (stacksByBoard ss stack.boardId) r a) stack.boardId hids hNp
  rw [e]
  have hsortperm : (stacksByBoard
        (ss.map (restampBy (applyOrderToArray (stacksByBoard ss stack.boardId) r a)))
        stack.boardId).Perm
      ((ss.map (restampBy (applyOrderToArray (stacksByBoard ss stack.boardId) r a))).filter
        (fun s => s.boardId == stack.boardId)) := by
    unfold stacksByBoard
    exact List.mergeSort_perm _ _
  have permLR := (hsortperm.map (fun s => s.order)).trans hperm2
  rw [show (applyOrderToArray (stacksByBoard ss stack.boardId) r a).length
      = (ss.filter (fun s => s.boardId == stack.boardId)).length from hNp.length_eq] at permLR
  have hPW : List.Pairwise (fun a b : Stack => (decide (a.order ≤ b.order)) = true)
      (stacksByBoard
        (ss.map (restampBy (applyOrderToArray (stacksByBoard ss stack.boardId) r a)))
        stack.boardId) := by
    unfold stacksByBoard
    exact List.sorted_mergeSort
      (by
        intro a b c h1 h2
        simp only [decide_eq_true_eq] at *
        omega)
      (by
        intro a b
        simp only [Bool.or_eq_true, decide_eq_true_eq]
        omega)
      _
  have pw1 : List.Pairwise (fun a b : Int => a ≤ b)
      ((stacksByBoard
        (ss.map (restampBy (applyOrderToArray (stacksByBoard ss stack.boardId) r a)))
        stack.boardId).map (fun s => s.order)) :=
    List.pairwise_map.mpr (hPW.imp fun h => decide_eq_true_eq.mp h)
  have pw2 : List.Pairwise (fun a b : Int => a ≤ b)
      ((List.range (ss.filter fun s => s.boardId == stack.boardId).length).map Int.ofNat) :=
    List.pairwise_map.mpr ((List.pairwise_lt_range _).imp fun h => Int.ofNat_le.mpr (le_of_lt h))
  exact List.Perm.eq_of_sorted (fun a b _ _ h1 h2 => le_antisymm h1 h2) pw1 pw2 permLR

/-- Witness for C3 on stacks A, B, C of board 7 with removedIndex 1 and
addedIndex 0. -/
theorem orderStack_restamps_contiguous_witness :
    (boardStacks.map (fun s => s.id)).Nodup
    ∧ 1 < (boardStacks.filter fun s => s.boardId == stackB.boardId).length
    ∧ 0 < (boardStacks.filter fun s => s.boardId == stackB.boardId).length
    ∧ (stacksByBoard (orderStack boardStacks stackB 1 0) stackB.boardId).map (fun s => s.order)
      = (List.range (boardStacks.filter fun s => s.boardId == stackB.boardId).length).map
          Int.ofNat :=
  ⟨by decide, by decide, by decide,
   orderStack_restamps_contiguous boardStacks stackB 1 0 (by decide) (by decide) (by decide)⟩

end Deck

namespace Deck.Obj

/-- Reading a field of a cons: the head's key shadows the tail. -/
theorem getField_cons (k0 : String) (v0 : Int) (rest : List (String × Int)) (k : String) :
    getField ((k0, v0) :: rest) k = if k0 == k then some v0 else getField rest k := by
  cases hk : (k0 == k) <;> simp [getField, List.find?_cons, hk]

/-- A key outside an object's own keys reads as absent. -/
theorem getField_eq_none (f : List (String × Int)) (k : String)
    (h : k ∉ f.map Prod.fst) : getField f k = none := by
  unfold getField
  have : f.find? (fun kv => kv.1 == k) = none := by
    rw [List.find?_eq_none]
    intro kv hkv
    simp only [beq_eq_false_iff_ne, ne_eq, Bool.not_eq_true]
    intro hEq
    exact h (hEq ▸ List.mem_map_of_mem Prod.fst hkv)
  rw [this]
  rfl

/-- With distinct keys, every entry reads back its own value. -/
theorem getField_of_mem_nodup (f : List (String × Int)) (hnd : (f.map Prod.fst).Nodup) :
    ∀ kv ∈ f, getField f kv.1 = some kv.2 := by
  induction f with
  | nil => intro kv hkv; cases hkv
  | cons hd rest ih =>
    obtain ⟨k0, v0⟩ := hd
    rw [List.map_cons] at hnd
    obtain ⟨hk0, hndr⟩ := List.nodup_cons.mp hnd
    intro kv hkv
    rcases List.mem_cons.mp hkv with hEq | hmem
    · subst hEq
      simp [getField_cons]
    · have hne : (k0 == kv.1) = false := by
        rw [beq_eq_false_iff_ne]
        intro hEq
        have hmm : kv.1 ∈ rest.map Prod.fst := List.mem_map.mpr ⟨kv, hmem, rfl⟩
        rw [hEq] at hk0
        exact hk0 hmm
      rw [getField_cons, hne]
      simp only [Bool.false_eq_true, if_false]
      exact ih hndr kv hmem

/-- Reading after setField: the set key reads the new value, others are
unchanged. -/
theorem getField_setField (f : List (String × Int)) (k : String) (v : Int) (k' : String) :
    getField (setField f k v) k' = if k == k' then some v else getField f k' := by
  induction f with
  | nil => simp [setField, getField_cons]
  | cons hd rest ih =>
    obtain ⟨a, b⟩ := hd
    by_cases hak : a = k
    · subst hak
      simp only [setField, if_pos rfl, getField_cons]
      cases hk : (a == k') <;> simp [hk, getField_cons]
    · simp only [setField, if_neg hak, getField_cons, ih]
      by_cases hkk : k = k'
      · subst hkk
        have h2 : (a == k) = false := by simpa using hak
        simp [h2]
      · have h2 : (k == k') = false := by simpa using hkk
        simp only [h2, Bool.false_eq_true, if_false]

/-- Object.assign lookup semantics: with a duplicate-free payload, a key
present in the payload reads the payload's value and any other key reads the
old object's value. -/
theorem getField_assignFields : ∀ (new old : List (String × Int)),
    ((new.map Prod.fst).Nodup) → ∀ k,
    getField (assignFields old new) k
      = match getField new k with
        | some v => some v
        | none => getField old k
  | [], old, _, k => by simp [assignFields, getField]
  | (k0, v0) :: rest, old, hnd, k => by
    rw [List.map_cons] at hnd
    obtain ⟨hk0, hndr⟩ := List.nodup_cons.mp hnd
    have step : assignFields old ((k0, v0) :: rest) = assignFields (setField old k0 v0) rest := rfl
    rw [step, getField_assignFields rest (setField old k0 v0) hndr k, getField_cons]
    by_cases hkk : k0 = k
    · subst hkk
      have hrest : getField rest k0 = none := getField_eq_none rest k0 hk0
      rw [hrest]
      simp [getField_setField]
    · have h2 : (k0 == k) = false := by simpa using hkk
      rw [h2]
      simp only [Bool.false_eq_true, if_false]
      cases getField rest k with
      | some v => rfl
      | none =>
        simp only []
        rw [getField_setField, if_neg (by simpa using hkk)]

/-- Setting a key to the value it already reads leaves the object
unchanged. -/
theorem setField_eq_self : ∀ (f : List (String × Int)) (k : String) (v : Int),
    getField f k = some v → setField f k v = f
  | [], k, v, h => by simp [getField] at h
  | (a, b) :: rest, k, v, h => by
    by_cases hak : a = k
    · subst hak
      rw [getField_cons, if_pos (by simp)] at h
      obtain rfl : b = v := by simpa using h
      simp [setField]
    · rw [getField_cons, if_neg (by simpa using hak)] at h
      simp only [setField, if_neg hak, List.cons.injEq, true_and]
      exact setField_eq_self rest k v h

/-- Assigning entries that all read back their own values is the
identity. -/
theorem assignFields_self_of_getField : ∀ (g f : List (String × Int)),
    (∀ kv ∈ g, getField f kv.1 = some kv.2) → assignFields f g = f
  | [], f, _ => rfl
  | (k0, v0) :: rest, f, h => by
    have step : assignFields f ((k0, v0) :: rest) = assignFields (setField f k0 v0) rest := rfl
    rw [step, setField_eq_self f k0 v0 (h (k0, v0) (List.mem_cons_self _ _))]
    exact assignFields_self_of_getField rest f (fun kv hkv => h kv (List.mem_cons_of_mem _ hkv))

/-- The Object.assign of an existing stack record and a duplicate-free
payload is a shallow merge in the sense of the specification. -/
theorem assignStack_isShallowMerge (existingStack stack : StackObj)
    (hkeys : (stack.fields.map Prod.fst).Nodup) :
    IsShallowMergeOf (assignStack existingStack stack) stack existingStack :=
  ⟨rfl, fun k => getField_assignFields stack.fields existingStack.fields hkeys k, rfl⟩

/-- Merging the same duplicate-free payload twice is the same as merging it
once. -/
theorem assignStack_idem (existingStack stack : StackObj)
    (hkeys : (stack.fields.map Prod.fst).Nodup) :
    assignStack (assignStack existingStack stack) stack = assignStack existingStack stack := by
  unfold assignStack
  simp only [StackObj.mk.injEq, true_and]
  constructor
  · exact assignFields_self_of_getField stack.fields _ (fun kv hkv => by
      rw [getField_assignFields stack.fields existingStack.fields hkeys kv.1,
        getField_of_mem_nodup stack.fields hkeys kv hkv])
  · cases stack.cards <;> rfl

end Deck.Obj

namespace Deck

/-- When findIdx? returns an index, find? returns the element at that
index. -/
theorem find?_eq_getElem_of_findIdx? {α : Type} :
    ∀ (l : List α) (p : α → Bool) (i : Nat), l.findIdx? p = some i →
      ∃ hi : i < l.length, l.find? p = some (l.get ⟨i, hi⟩)
  | [], p, i, h => by simp [List.findIdx?_nil] at h
  | x :: xs, p, i, h => by
    rw [List.findIdx?_cons] at h
    by_cases hp : p x = true
    · rw [if_pos hp] at h
      obtain rfl : (0 : Nat) = i := by simpa using h
      exact ⟨by simp, by simp [List.find?_cons, hp]⟩
    · rw [if_neg hp, List.findIdx?_succ] at h
      obtain ⟨j, hj, hji⟩ := Option.map_eq_some'.mp h
      subst hji
      obtain ⟨hjl, hfind⟩ := find?_eq_getElem_of_findIdx? xs p j hj
      refine ⟨by simpa using Nat.succ_lt_succ hjl, ?_⟩
      rw [List.find?_cons]
      simp only [Bool.not_eq_true] at hp
      rw [hp]
      simpa using hfind

end Deck

namespace Deck.Obj

/-- The ids after an addStack: unchanged when the payload id is present,
appended otherwise. -/
theorem addStack_map_id (ss : List StackObj) (stack : StackObj) :
    (addStack ss stack).map (fun s => s.id)
      = if stack.id ∈ ss.map (fun s => s.id) then ss.map (fun s => s.id)
        else ss.map (fun s => s.id) ++ [stack.id] := by
  cases h : ss.findIdx? (fun s => s.id == stack.id) with
  | none =>
    have hnmem : stack.id ∉ ss.map (fun s => s.id) := by
      rw [List.findIdx?_eq_none_iff] at h
      intro hmem
      obtain ⟨s, hs, hsid⟩ := List.mem_map.mp hmem
      have h2 := h s hs
      rw [beq_eq_false_iff_ne] at h2
      exact h2 hsid
    rw [if_neg hnmem]
    simp [addStack, h]
  | some i =>
    obtain ⟨hi, hfind⟩ := find?_eq_getElem_of_findIdx? ss _ i h
    obtain ⟨hi', hp, -⟩ := List.findIdx?_eq_some_iff_getElem.mp h
    have hmem : stack.id ∈ ss.map (fun s => s.id) := by
      rw [List.mem_map]
      exact ⟨ss[i], List.getElem_mem hi', beq_iff_eq.mp hp⟩
    rw [if_pos hmem]
    simp only [addStack, h, hfind]
    apply List.ext_getElem
    · simp
    · intro j h1 h2
      simp only [List.getElem_map, List.getElem_set]
      by_cases hij : i = j
      · subst hij
        rw [if_pos rfl]
        exact (beq_iff_eq.mp hp).symm
      · rw [if_neg hij]

/-- The ids after an addBoard: unchanged when the payload id is present,
appended otherwise. -/
theorem addBoard_map_id (bs : List BoardObj) (board : BoardObj) :
    (addBoard bs board).map (fun b => b.id)
      = if board.id ∈ bs.map (fun b => b.id) then bs.map (fun b => b.id)
        else bs.map (fun b => b.id) ++ [board.id] := by
  cases h : bs.findIdx? (fun b => board.id == b.id) with
  | none =>
    have hnmem : board.id ∉ bs.map (fun b => b.id) := by
      rw [List.findIdx?_eq_none_iff] at h
      intro hmem
      obtain ⟨b, hb, hbid⟩ := List.mem_map.mp hmem
      have h2 := h b hb
      rw [beq_eq_false_iff_ne] at h2
      exact h2 hbid.symm
    rw [if_neg hnmem]
    simp [addBoard, h]
  | some i =>
    obtain ⟨hi', hp, -⟩ := List.findIdx?_eq_some_iff_getElem.mp h
    have hmem : board.id ∈ bs.map (fun b => b.id) := by
      rw [List.mem_map]
      exact ⟨bs[i], List.getElem_mem hi', (beq_iff_eq.mp hp).symm⟩
    rw [if_pos hmem]
    simp only [addBoard, h]
    apply List.ext_getElem
    · simp
    · intro j h1 h2
      simp only [List.getElem_map, List.getElem_set]
      by_cases hij : i = j
      · subst hij
        rw [if_pos rfl]
        exact beq_iff_eq.mp hp
      · rw [if_neg hij]

/-- One addStack preserves duplicate-free ids and adds exactly the payload
id to the id set. -/
theorem addStack_ids_invariant (ss : List StackObj) (stack : StackObj)
    (hnd : (ss.map (fun s => s.id)).Nodup) :
    ((addStack ss stack).map (fun s => s.id)).Nodup
    ∧ ∀ x, x ∈ (addStack ss stack).map (fun s => s.id)
        ↔ x ∈ ss.map (fun s => s.id) ∨ x = stack.id := by
  by_cases hmem : stack.id ∈ ss.map (fun s => s.id)
  · rw [addStack_map_id, if_pos hmem]
    exact ⟨hnd, fun x => ⟨fun h => Or.inl h, fun h => h.elim id (fun hEq => hEq ▸ hmem)⟩⟩
  · rw [addStack_map_id, if_neg hmem]
    constructor
    · rw [List.nodup_append]
      refine ⟨hnd, List.nodup_singleton _, ?_⟩
      intro x hx1 hx2
      rw [List.mem_singleton] at hx2
      subst hx2
      exact hmem hx1
    · intro x
      simp [List.mem_append]

/-- One addBoard preserves duplicate-free ids and adds exactly the payload
id to the id set. -/
theorem addBoard_ids_invariant (bs : List BoardObj) (board : BoardObj)
    (hnd : (bs.map (fun b => b.id)).Nodup) :
    ((addBoard bs board).map (fun b => b.id)).Nodup
    ∧ ∀ x, x ∈ (addBoard bs board).map (fun b => b.id)
        ↔ x ∈ bs.map (fun b => b.id) ∨ x = board.id := by
  by_cases hmem : board.id ∈ bs.map (fun b => b.id)
  · rw [addBoard_map_id, if_pos hmem]
    exact ⟨hnd, fun x => ⟨fun h => Or.inl h, fun h => h.elim id (fun hEq => hEq ▸ hmem)⟩⟩
  · rw [addBoard_map_id, if_neg hmem]
    constructor
    · rw [List.nodup_append]
      refine ⟨hnd, List.nodup_singleton _, ?_⟩
      intro x hx1 hx2
      rw [List.mem_singleton] at hx2
      subst hx2
      exact hmem hx1
    · intro x
      simp [List.mem_append]

/-- Folding addStack over any payload sequence keeps ids duplicate-free and
yields exactly the union of the id sets. -/
theorem foldl_addStack_unique (ps : List StackObj) : ∀ (ss : List StackObj),
    (ss.map (fun s => s.id)).Nodup →
    ((ps.foldl addStack ss).map (fun s => s.id)).Nodup
    ∧ ∀ x, x ∈ (ps.foldl addStack ss).map (fun s => s.id)
        ↔ x ∈ ss.map (fun s => s.id) ∨ x ∈ ps.map (fun s => s.id) := by
  induction ps with
  | nil =>
    intro ss h
    exact ⟨h, fun x => by simp⟩
  | cons p rest ih =>
    intro ss h
    have hstep := addStack_ids_invariant ss p h
    have hrec := ih (addStack ss p) hstep.1
    refine ⟨hrec.1, fun x => ?_⟩
    have e : (p :: rest).foldl addStack ss = rest.foldl addStack (addStack ss p) := rfl
    rw [e, hrec.2 x, hstep.2 x]
    simp only [List.map_cons, List.mem_cons]
    tauto

/-- Folding addBoard over any payload sequence keeps ids duplicate-free and
yields exactly the union of the id sets. -/
theorem foldl_addBoard_unique (ps : List BoardObj) : ∀ (bs : List BoardObj),
    (bs.map (fun b => b.id)).Nodup →
    ((ps.foldl addBoard bs).map (fun b => b.id)).Nodup
    ∧ ∀ x, x ∈ (ps.foldl addBoard bs).map (fun b => b.id)
        ↔ x ∈ bs.map (fun b => b.id) ∨ x ∈ ps.map (fun b => b.id) := by
  induction ps with
  | nil =>
    intro bs h
    exact ⟨h, fun x => by simp⟩
  | cons p rest ih =>
    intro bs h
    have hstep := addBoard_ids_invariant bs p h
    have hrec := ih (addBoard bs p) hstep.1
    refine ⟨hrec.1, fun x => ?_⟩
    have e : (p :: rest).foldl addBoard bs = rest.foldl addBoard (addBoard bs p) := rfl
    rw [e, hrec.2 x, hstep.2 x]
    simp only [List.map_cons, List.mem_cons]
    tauto

/-- addStack with an already-present id replaces the first matching slot by
the Object.assign merge and never changes the length. -/
theorem addStack_merge (ss : List StackObj) (stack : StackObj)
    (hmem : stack.id ∈ ss.map (fun s => s.id)) :
    (addStack ss stack).length = ss.length
    ∧ ∃ i, ∃ hi : i < ss.length, (ss.get ⟨i, hi⟩).id = stack.id
        ∧ addStack ss stack = ss.set i (assignStack (ss.get ⟨i, hi⟩) stack) := by
  have hsome : (ss.findIdx? (fun s => s.id == stack.id)).isSome := by
    rw [List.findIdx?_isSome, List.any_eq_true]
    obtain ⟨s, hs, hsid⟩ := List.mem_map.mp hmem
    exact ⟨s, hs, by simpa using hsid⟩
  obtain ⟨i, hidx⟩ := Option.isSome_iff_exists.mp hsome
  obtain ⟨hi, hfind⟩ := Deck.find?_eq_getElem_of_findIdx? ss _ i hidx
  obtain ⟨hi', hp, -⟩ := List.findIdx?_eq_some_iff_getElem.mp hidx
  have e : addStack ss stack = ss.set i (assignStack (ss.get ⟨i, hi⟩) stack) := by
    simp only [addStack, hidx, hfind]
  refine ⟨by rw [e]; exact List.length_set ss i _, i, hi, ?_, e⟩
  simp only [List.get_eq_getElem]
  exact beq_iff_eq.mp hp

/-- addBoard with an already-present id replaces the first matching slot by
the payload itself and never changes the length. -/
theorem addBoard_replace (bs : List BoardObj) (board : BoardObj)
    (hmem : board.id ∈ bs.map (fun b => b.id)) :
    (addBoard bs board).length = bs.length ∧ ∃ i, addBoard bs board = bs.set i board := by
  have hsome : (bs.findIdx? (fun b => board.id == b.id)).isSome := by
    rw [List.findIdx?_isSome, List.any_eq_true]
    obtain ⟨b, hb, hbid⟩ := List.mem_map.mp hmem
    exact ⟨b, hb, by simpa using hbid.symm⟩
  obtain ⟨i, hidx⟩ := Option.isSome_iff_exists.mp hsome
  have e : addBoard bs board = bs.set i board := by
    simp only [addBoard, hidx]
  exact ⟨by rw [e]; exact List.length_set bs i board, i, e⟩

/-- addStack with an identical duplicate-free payload is idempotent. -/
theorem addStack_idem (ss : List StackObj) (stack : StackObj)
    (hkeys : (stack.fields.map Prod.fst).Nodup) :
    addStack (addStack ss stack) stack = addStack ss stack := by
  cases h : ss.findIdx? (fun s => s.id == stack.id) with
  | some i =>
    obtain ⟨hi, hfind⟩ := Deck.find?_eq_getElem_of_findIdx? ss _ i h
    obtain ⟨hi', hp, hmin⟩ := List.findIdx?_eq_some_iff_getElem.mp h
    have e : addStack ss stack = ss.set i (assignStack (ss.get ⟨i, hi⟩) stack) := by
      simp only [addStack, h, hfind]
    set m := assignStack (ss.get ⟨i, hi⟩) stack with hm
    have hlen : i < (ss.set i m).length := by simpa using hi
    have h2 : (ss.set i m).findIdx? (fun s => s.id == stack.id) = some i := by
      rw [List.findIdx?_eq_some_iff_getElem]
      refine ⟨hlen, ?_, ?_⟩
      · have hset : (ss.set i m)[i] = m := by rw [List.getElem_set, if_pos rfl]
        rw [hset]
        simp [hm, assignStack]
      · intro j hji
        have hj : j < ss.length := by omega
        have hset : (ss.set i m)[j] = ss[j] := by rw [List.getElem_set, if_neg (by omega)]
        rw [hset]
        exact hmin j hji
    obtain ⟨hi2, hfind2⟩ := Deck.find?_eq_getElem_of_findIdx? (ss.set i m) _ i h2
    have hgetm : (ss.set i m).get ⟨i, hi2⟩ = m := by
      rw [List.get_eq_getElem, List.getElem_set, if_pos rfl]
    have e2 : addStack (ss.set i m) stack = (ss.set i m).set i (assignStack m stack) := by
      simp only [addStack, h2, hfind2, hgetm]
    rw [e, e2, List.set_set, hm, assignStack_idem (ss.get ⟨i, hi⟩) stack hkeys]
  | none =>
    have hall := List.findIdx?_eq_none_iff.mp h
    have e : addStack ss stack = ss ++ [stack] := by simp only [addStack, h]
    have h2 : (ss ++ [stack]).findIdx? (fun s => s.id == stack.id) = some ss.length := by
      rw [List.findIdx?_eq_some_iff_getElem]
      refine ⟨by simp, ?_, ?_⟩
      · have hb : (ss ++ [stack])[ss.length] = stack :=
          List.getElem_concat_length ss stack ss.length rfl (by simp)
        rw [hb]
        simp
      · intro j hji
        have hj : j < ss.length := hji
        have hj2 : j < (ss ++ [stack]).length := by
          rw [List.length_append]
          omega
        have hb : (ss ++ [stack])[j] = ss[j] := List.getElem_append_left hj
        rw [hb]
        simp [hall ss[j] (List.getElem_mem hj)]
    obtain ⟨hi2, hfind2⟩ := Deck.find?_eq_getElem_of_findIdx? (ss ++ [stack]) _ _ h2
    have hget : (ss ++ [stack]).get ⟨ss.length, hi2⟩ = stack := by
      simp only [List.get_eq_getElem]
      exact List.getElem_concat_length ss stack ss.length rfl (by simp)
    have e2 : addStack (ss ++ [stack]) stack
        = (ss ++ [stack]).set ss.length (assignStack stack stack) := by
      simp only [addStack, h2, hfind2, hget]
    have hself : assignStack stack stack = stack := by
      have hfields : assignFields stack.fields stack.fields = stack.fields :=
        assignFields_self_of_getField stack.fields stack.fields
          (fun kv hkv => getField_of_mem_nodup stack.fields hkeys kv hkv)
      obtain ⟨sid, sfields, scards⟩ := stack
      unfold assignStack
      simp only [StackObj.mk.injEq, true_and]
      refine ⟨hfields, ?_⟩
      cases scards <;> rfl
    rw [e, e2, hself]
    have hfin := Deck.set_getElem_self (ss ++ [stack]) ss.length hi2
    rw [hget] at hfin
    exact hfin

/-- addBoard with an identical payload is idempotent. -/
theorem addBoard_idem (bs : List BoardObj) (board : BoardObj) :
    addBoard (addBoard bs board) board = addBoard bs board := by
  cases h : bs.findIdx? (fun b => board.id == b.id) with
  | some i =>
    obtain ⟨hi, hp, hmin⟩ := List.findIdx?_eq_some_iff_getElem.mp h
    have e : addBoard bs board = bs.set i board := by simp only [addBoard, h]
    have h2 : (bs.set i board).findIdx? (fun b => board.id == b.id) = some i := by
      rw [List.findIdx?_eq_some_iff_getElem]
      refine ⟨by simpa using hi, ?_, ?_⟩
      · have hilen : i < (bs.set i board).length := by simpa using hi
        have hset : (bs.set i board)[i] = board := by rw [List.getElem_set, if_pos rfl]
        rw [hset]
        simp
      · intro j hji
        have hj : j < bs.length := by omega
        have hjlen : j < (bs.set i board).length := by simpa using hj
        have hset : (bs.set i board)[j] = bs[j] := by rw [List.getElem_set, if_neg (by omega)]
        rw [hset]
        exact hmin j hji
    have e2 : addBoard (bs.set i board) board = (bs.set i board).set i board := by
      simp only [addBoard, h2]
    rw [e, e2, List.set_set]
  | none =>
    have hall := List.findIdx?_eq_none_iff.mp h
    have e : addBoard bs board = bs ++ [board] := by simp only [addBoard, h]
    have h2 : (bs ++ [board]).findIdx? (fun b => board.id == b.id) = some bs.length := by
      rw [List.findIdx?_eq_some_iff_getElem]
      refine ⟨by simp, ?_, ?_⟩
      · have hb : (bs ++ [board])[bs.length] = board :=
          List.getElem_concat_length bs board bs.length rfl (by simp)
        rw [hb]
        simp
      · intro j hji
        have hj : j < bs.length := hji
        have hj2 : j < (bs ++ [board]).length := by
          rw [List.length_append]
          omega
        have hb : (bs ++ [board])[j] = bs[j] := List.getElem_append_left hj
        rw [hb]
        simp [hall bs[j] (List.getElem_mem hj)]
    have e2 : addBoard (bs ++ [board]) board = (bs ++ [board]).set bs.length board := by
      simp only [addBoard, h2]
    rw [e, e2]
    have hlen : bs.length < (bs ++ [board]).length := by simp
    have hget : (bs ++ [board]).get ⟨bs.length, hlen⟩ = board := by
      simp only [List.get_eq_getElem]
      exact List.getElem_concat_length bs board bs.length rfl (by simp)
    have hfin := Deck.set_getElem_self (bs ++ [board]) bs.length hlen
    rw [hget] at hfin
    exact hfin

end Deck.Obj

namespace Deck

/-- C4, counterexample: addBoard with an existing id replaces the record
wholesale; the stored color field of board 1 is lost rather than preserved,
while a shallow merge (as addStack performs) would have kept it. -/
theorem addBoard_replaces_counterexample :
    Obj.addBoard exBoardStore exBoardPayload = [exBoardPayload]
    ∧ (Obj.addBoard exBoardStore exBoardPayload).map (fun b => Obj.getField b.fields "color")
        = [none]
    ∧ Obj.getField (Obj.assignFields [("title", 1), ("color", 5)] [("title", 2)]) "color"
        = some 5 := by
  decide

/-- C4, amended: every sequence of addStack (resp. addBoard) calls from the
empty collection yields exactly one record per distinct id; an addStack on an
existing id shallow-merges the payload over the existing record in place and
never appends, whereas an addBoard on an existing id replaces the record
wholesale in place and never appends; both are idempotent for identical
payloads. -/
theorem add_upsert_semantics :
    (∀ ps : List Obj.StackObj,
        ((ps.foldl Obj.addStack []).map (fun s => s.id)).Nodup
        ∧ ∀ x, x ∈ (ps.foldl Obj.addStack []).map (fun s => s.id)
            ↔ x ∈ ps.map (fun s => s.id))
    ∧ (∀ ps : List Obj.BoardObj,
        ((ps.foldl Obj.addBoard []).map (fun b => b.id)).Nodup
        ∧ ∀ x, x ∈ (ps.foldl Obj.addBoard []).map (fun b => b.id)
            ↔ x ∈ ps.map (fun b => b.id))
    ∧ (∀ (ss : List Obj.StackObj) (stack : Obj.StackObj),
        (stack.fields.map Prod.fst).Nodup →
        stack.id ∈ ss.map (fun s => s.id) →
        (Obj.addStack ss stack).length = ss.length
        ∧ ∃ i, ∃ hi : i < ss.length, (ss.get ⟨i, hi⟩).id = stack.id
            ∧ ∃ merged, Obj.IsShallowMergeOf merged stack (ss.get ⟨i, hi⟩)
              ∧ Obj.addStack ss stack = ss.set i merged)
    ∧ (∀ (bs : List Obj.BoardObj) (board : Obj.BoardObj),
        board.id ∈ bs.map (fun b => b.id) →
        (Obj.addBoard bs board).length = bs.length
        ∧ ∃ i, Obj.addBoard bs board = bs.set i board)
    ∧ (∀ (ss : List Obj.StackObj) (stack : Obj.StackObj),
        (stack.fields.map Prod.fst).Nodup →
        Obj.addStack (Obj.addStack ss stack) stack = Obj.addStack ss stack)
    ∧ (∀ (bs : List Obj.BoardObj) (board : Obj.BoardObj),
        Obj.addBoard (Obj.addBoard bs board) board = Obj.addBoard bs board) := by
  refine ⟨?_, ?_, ?_, ?_, ?_, ?_⟩
  · intro ps
    obtain ⟨h1, h2⟩ := Obj.foldl_addStack_unique ps [] (by simp)
    exact ⟨h1, fun x => by simpa using h2 x⟩
  · intro ps
    obtain ⟨h1, h2⟩ := Obj.foldl_addBoard_unique ps [] (by simp)
    exact ⟨h1, fun x => by simpa using h2 x⟩
  · intro ss stack hkeys hmem
    obtain ⟨hlen, i, hi, hid, he⟩ := Obj.addStack_merge ss stack hmem
    exact ⟨hlen, i, hi, hid, Obj.assignStack (ss.get ⟨i, hi⟩) stack,
      Obj.assignStack_isShallowMerge (ss.get ⟨i, hi⟩) stack hkeys, he⟩
  · intro bs board hmem
    exact Obj.addBoard_replace bs board hmem
  · intro ss stack hkeys
    exact Obj.addStack_idem ss stack hkeys
  · intro bs board
    exact Obj.addBoard_idem bs board

/-- Witness for the amended C4 on a one-record store and a partial payload
with the same id. -/
theorem add_upsert_semantics_witness :
    ((Obj.addStack exStackStore exStackPayload).length = exStackStore.length
      ∧ ∃ i, ∃ hi : i < exStackStore.length, (exStackStore.get ⟨i, hi⟩).id = exStackPayload.id
          ∧ ∃ merged, Obj.IsShallowMergeOf merged exStackPayload (exStackStore.get ⟨i, hi⟩)
            ∧ Obj.addStack exStackStore exStackPayload = exStackStore.set i merged)
    ∧ ((Obj.addBoard exBoardStore exBoardPayload).length = exBoardStore.length
      ∧ ∃ i, Obj.addBoard exBoardStore exBoardPayload = exBoardStore.set i exBoardPayload)
    ∧ Obj.addStack (Obj.addStack exStackStore exStackPayload) exStackPayload
        = Obj.addStack exStackStore exStackPayload
    ∧ Obj.addBoard (Obj.addBoard exBoardStore exBoardPayload) exBoardPayload
        = Obj.addBoard exBoardStore exBoardPayload :=
  ⟨add_upsert_semantics.2.2.1 exStackStore exStackPayload (by decide) (by decide),
   add_upsert_semantics.2.2.2.1 exBoardStore exBoardPayload (by decide),
   add_upsert_semantics.2.2.2.2.1 exStackStore exStackPayload (by decide),
   add_upsert_semantics.2.2.2.2.2 exBoardStore exBoardPayload⟩

end Deck
